import Mathlib

/-!
Shallow embedding of the rational-number codec in
`src/representations/number.rs` (traits `RationalNumberReader` /
`RationalNumberWriter` implemented for `[u8]`, `i64` and `u64`).

Modelling conventions:
* A byte buffer (`&[u8]`, `Vec<u8>`) is a `List Nat`; bytes written by the
  encoder are always reduced mod 256 at the write site, exactly where the
  Rust code casts to `u8`/`u16`/`u32`/`u64`.
* A Rust panic is modelled by the `Panic` error of an `Except Panic`
  result.  The Rust functions have no error channel at all (their return
  types are plain tuples), so every `.error` outcome of a model function
  corresponds to a panic of the original, never to a recoverable error.
* `i64` values are `Int`s; theorems restrict them to the i64 range where
  needed.  `v as i64` on a `u64` is two's-complement reinterpretation,
  `u64_as_i64`.  `self.abs() as u64` is `Int.natAbs` (this is the release
  semantics; in debug builds `i64::MIN.abs()` panics, and theorems below
  stay away from `i64::MIN` except where a claim forces it).
* Discriminant bit operations are rendered arithmetically:
  `disc & 0x0F = disc % 16`, `(disc & 0x70) >> 4 = disc / 16 % 8`, and
  `disc & 0x80 != 0  ↔  128 ≤ disc % 256`; these identities are exact for
  every `Nat`, not only for bytes.
-/

/-- The kinds of Rust panic the codec can hit: a failed `bytes::Buf`
read/advance (`bufUnderrun`), the two `unreachable!` arms of
`get_frac_i64`, slice indexing out of bounds (`dest[p]`, `self[i]`),
and a `bytes::BufMut` write past the end of a fixed slice. -/
inductive Panic where
  | bufUnderrun : Panic
  | unreachableNum : Nat → Panic
  | unreachableDen : Nat → Panic
  | indexOutOfBounds : Panic
  | bufOverflow : Panic
deriving DecidableEq, Repr

instance {ε α : Type} [DecidableEq ε] [DecidableEq α] : DecidableEq (Except ε α) :=
fun a b =>
  match a, b with
  | .ok x, .ok y =>
    if h : x = y then .isTrue (by rw [h]) else .isFalse (by simp [h])
  | .ok _, .error _ => .isFalse (by simp)
  | .error _, .ok _ => .isFalse (by simp)
  | .error e, .error f =>
    if h : e = f then .isTrue (by rw [h]) else .isFalse (by simp [h])

/-- Discriminant constant `U8_NUM = 0b00000001`. -/
def U8_NUM : Nat := 1
/-- Discriminant constant `U16_NUM = 0b00000010`. -/
def U16_NUM : Nat := 2
/-- Discriminant constant `U32_NUM = 0b00000011`. -/
def U32_NUM : Nat := 3
/-- Discriminant constant `U64_NUM = 0b00000100`. -/
def U64_NUM : Nat := 4
/-- Discriminant constant `U8_DEN = 0b00010000`. -/
def U8_DEN : Nat := 16
/-- Discriminant constant `U16_DEN = 0b00100000`. -/
def U16_DEN : Nat := 32
/-- Discriminant constant `U32_DEN = 0b00110000`. -/
def U32_DEN : Nat := 48
/-- Discriminant constant `U64_DEN = 0b01000000`. -/
def U64_DEN : Nat := 64
/-- Discriminant constant `SIGN = 0b10000000`. -/
def SIGN : Nat := 128

/-- Little-endian byte list of the lowest `w` bytes of `v`: the bytes that
`put_u8`/`put_u16_le`/`put_u32_le`/`put_u64_le` append for `w` = 1/2/4/8
(the casts `as u8`/`as u16`/`as u32` are the `% 256` at each byte). -/
def leBytes : Nat → Nat → List Nat
  | 0, _ => []
  | w + 1, v => v % 256 :: leBytes w (v / 256)

/-- Value of a little-endian byte list, as read back by
`get_u8`/`get_u16_le`/`get_u32_le`/`get_u64_le`. -/
def leVal : List Nat → Nat
  | [] => 0
  | b :: r => b + 256 * leVal r

/-- `bytes::Buf` read of `w` little-endian bytes from a slice
(`get_u8` = `getLe 1`, `get_u16_le` = `getLe 2`, `get_u32_le` = `getLe 4`,
`get_u64_le` = `getLe 8`); the crate panics when fewer than `w` bytes
remain. -/
def getLe (w : Nat) (l : List Nat) : Except Panic (Nat × List Nat) :=
  if w ≤ l.length then .ok (leVal (l.take w), l.drop w) else .error .bufUnderrun

/-- `bytes::Buf::advance(cnt)` on a `&[u8]`: drops `cnt` bytes, panicking
past the end. -/
def advanceBy (cnt : Nat) (l : List Nat) : Except Panic (List Nat) :=
  if cnt ≤ l.length then .ok (l.drop cnt) else .error .bufUnderrun

/-- Two's-complement wrap of an integer into the i64 range, used to model
`v as i64` on a `u64` and the (release-mode) wrapping of i64 negation. -/
def wrap64 (x : Int) : Int := (x + 2 ^ 63) % 2 ^ 64 - 2 ^ 63

/-- `v as i64` for a `u64` value `v`: two's-complement reinterpretation. -/
def u64_as_i64 (v : Nat) : Int := if v < 2 ^ 63 then (v : Int) else (v : Int) - 2 ^ 64

/-- Rust `-num` on an `i64` (wrapping at `i64::MIN`, which panics in debug
builds; no theorem below relies on the wrapped value except where a claim
is explicitly about that corner). -/
def neg64 (x : Int) : Int := wrap64 (-x)

/-- The numerator arm of `get_frac_i64`'s first `match disc & NUM_MASK`:
codes 1/2/3/4 read 1/2/4/8 little-endian bytes (`v as i64` is
zero-extension for 1/2/4 bytes and reinterpretation for 8), every other
code hits `unreachable!("Unsupported numerator type")`. -/
def readNumMag (c : Nat) (s : List Nat) : Except Panic (Int × List Nat) :=
  if c = 1 then (getLe 1 s).map (fun p => ((p.1 : Int), p.2))
  else if c = 2 then (getLe 2 s).map (fun p => ((p.1 : Int), p.2))
  else if c = 3 then (getLe 4 s).map (fun p => ((p.1 : Int), p.2))
  else if c = 4 then (getLe 8 s).map (fun p => (u64_as_i64 p.1, p.2))
  else .error (.unreachableNum c)

/-- The denominator arm of `get_frac_i64`'s second
`match (disc & DEN_MASK) >> 4`: code 0 yields the implicit denominator 1
with no bytes consumed, codes 1-4 read as in `readNumMag`, every other
code hits `unreachable!("Unsupported denominator type")`. -/
def readDenMag (c : Nat) (s : List Nat) : Except Panic (Int × List Nat) :=
  if c = 0 then .ok ((1 : Int), s)
  else if c = 1 then (getLe 1 s).map (fun p => ((p.1 : Int), p.2))
  else if c = 2 then (getLe 2 s).map (fun p => ((p.1 : Int), p.2))
  else if c = 3 then (getLe 4 s).map (fun p => ((p.1 : Int), p.2))
  else if c = 4 then (getLe 8 s).map (fun p => (u64_as_i64 p.1, p.2))
  else .error (.unreachableDen c)

/-- `<[u8] as RationalNumberReader>::get_frac_i64`: reads the discriminant
byte, the numerator magnitude per `disc & NUM_MASK`, the denominator
magnitude per `(disc & DEN_MASK) >> 4` (the two inline `match`es are the
named helpers `readNumMag` / `readDenMag`), then negates the numerator if
the sign bit `disc & SIGN` is set. -/
def get_frac_i64 (source : List Nat) : Except Panic (Int × Int × List Nat) := do
  let (disc, s1) ← getLe 1 source
  let (num, s2) ← readNumMag (disc % 16) s1
  let (den, s3) ← readDenMag (disc / 16 % 8) s2
  if 128 ≤ disc % 256 then pure (neg64 num, den, s3) else pure (num, den, s3)

/-- `<[u8] as RationalNumberReader>::skip_rational`: reads the discriminant
and advances by `(var_size & NUM_MASK) + ((var_size & DEN_MASK) >> 4)`,
the sum of the two width-class codes. -/
def skip_rational (source : List Nat) : Except Panic (List Nat) := do
  let (var_size, dest) ← getLe 1 source
  let size := var_size % 16 + var_size / 16 % 8
  advanceBy size dest

/-- Rust slice indexing `l[i]`, which panics out of bounds. -/
def sliceIndex (l : List Nat) (i : Nat) : Except Panic Nat :=
  match l[i]? with
  | some v => .ok v
  | none => .error .indexOutOfBounds

/-- `is_one_rat`: `self[1] == 1 && self[2] == 1` with Rust's
short-circuiting `&&` (the second index is evaluated only when the first
comparison is true). -/
def is_one_rat (l : List Nat) : Except Panic Bool := do
  let b1 ← sliceIndex l 1
  if b1 = 1 then do
    let b2 ← sliceIndex l 2
    pure (b2 == 1)
  else pure false

/-- `is_zero_rat`: `self[1] == 1 && self[2] == 0` with short-circuiting
`&&`. -/
def is_zero_rat (l : List Nat) : Except Panic Bool := do
  let b1 ← sliceIndex l 1
  if b1 = 1 then do
    let b2 ← sliceIndex l 2
    pure (b2 == 0)
  else pure false

/-- `dest[p] |= x` on a `Vec<u8>`: or the bits of `x` into byte `p`
(every call site below has `p` in bounds, matching the Rust code, where an
out-of-bounds `p` would panic). -/
def orAt (l : List Nat) (p x : Nat) : List Nat := l.set p (l.getD p 0 ||| x)

/-- `<u64 as RationalNumberWriter>::write_frac` (growable `Vec` path):
writes the numerator discriminant and magnitude, then, unless the
denominator is 1, ors the denominator width-class into the discriminant at
position `p` and appends the denominator magnitude; the 4-byte
denominator branch additionally does `dest.put_u8(3)` before
`put_u32_le`. -/
def u64_write_frac (v den : Nat) (dest : List Nat) : List Nat :=
  let p := dest.length
  let d :=
    if v < 255 then dest ++ [U8_NUM] ++ leBytes 1 v
    else if v < 65535 then dest ++ [U16_NUM] ++ leBytes 2 v
    else if v < 4294967295 then dest ++ [U32_NUM] ++ leBytes 4 v
    else dest ++ [U64_NUM] ++ leBytes 8 v
  if den = 1 then d
  else if den < 255 then orAt d p U8_DEN ++ leBytes 1 den
  else if den < 65535 then orAt d p U16_DEN ++ leBytes 2 den
  else if den < 4294967295 then orAt d p U32_DEN ++ [3] ++ leBytes 4 den
  else orAt d p U64_DEN ++ leBytes 8 den

/-- `<i64 as RationalNumberWriter>::write_num`: writes the smallest-class
discriminant for `self.abs()` and the magnitude bytes — except that the
1-byte branch writes `*self as u8` (the two's-complement low byte of the
signed value, `(n % 256).toNat`) where the wider branches write the
magnitude `num` — then sets the sign bit at `p` if the value is
negative. -/
def i64_write_num (n : Int) (dest : List Nat) : List Nat :=
  let p := dest.length
  let num := n.natAbs
  let d :=
    if num < 255 then dest ++ [U8_NUM] ++ [(n % 256).toNat]
    else if num < 65535 then dest ++ [U16_NUM] ++ leBytes 2 num
    else if num < 4294967295 then dest ++ [U32_NUM] ++ leBytes 4 num
    else dest ++ [U64_NUM] ++ leBytes 8 num
  if n < 0 then orAt d p SIGN else d

/-- `<i64 as RationalNumberWriter>::write_frac` (growable `Vec` path):
delegates the magnitudes to the `u64` encoder, then sets the sign bit at
`p` when `*self >= 0 && den < 0 || *self < 0 && den >= 0`. -/
def i64_write_frac (num den : Int) (dest : List Nat) : List Nat :=
  let p := dest.length
  let d := u64_write_frac num.natAbs den.natAbs dest
  if (0 ≤ num ∧ den < 0) ∨ (num < 0 ∧ 0 ≤ den) then orAt d p SIGN else d

/-- A `&mut [u8]` destination as used by `bytes::BufMut`: `written` holds
the bytes already written (behind the cursor, no longer reachable from the
slice binding) and `window` is the slice the binding still sees.  The
caller's original buffer is `written ++ window`. -/
structure FixedBuf where
  written : List Nat
  window : List Nat
deriving DecidableEq, Repr

/-- `bytes::BufMut` write of `w` little-endian bytes into a fixed slice
(`put_u8` = `putLe 1` etc.); the crate asserts `w` bytes of remaining
capacity and panics otherwise, and on success the slice binding advances
past the bytes written. -/
def putLe (w v : Nat) (fb : FixedBuf) : Except Panic FixedBuf :=
  if w ≤ fb.window.length then .ok ⟨fb.written ++ leBytes w v, fb.window.drop w⟩
  else .error .bufOverflow

/-- `dest[p] |= x` on the current `&mut [u8]` slice binding: panics when
`p` is not within the (possibly already shrunk) window. -/
def orWindowAt (fb : FixedBuf) (p x : Nat) : Except Panic FixedBuf :=
  if p < fb.window.length then .ok ⟨fb.written, orAt fb.window p x⟩
  else .error .indexOutOfBounds

/-- The numerator if-chain of `<u64 as RationalNumberWriter>::write_frac_fixed`
(width-class discriminant byte written as the literals 1/2/3/4, then the
magnitude), factored out of the inlined Rust body. -/
def writeNumFixed (v : Nat) (fb : FixedBuf) : Except Panic FixedBuf := do
  if v < 255 then do
    let a ← putLe 1 1 fb
    putLe 1 v a
  else if v < 65535 then do
    let a ← putLe 1 2 fb
    putLe 2 v a
  else if v < 4294967295 then do
    let a ← putLe 1 3 fb
    putLe 4 v a
  else do
    let a ← putLe 1 4 fb
    putLe 8 v a

/-- `<u64 as RationalNumberWriter>::write_frac_fixed`: `p` is the length
of the slice before any write; each non-trivial denominator branch starts
with `dest[p] |= ...` on the by-then-shrunk slice. -/
def u64_write_frac_fixed (v den : Nat) (fb : FixedBuf) : Except Panic FixedBuf := do
  let p := fb.window.length
  let d ← writeNumFixed v fb
  if den = 1 then pure d
  else if den < 255 then do
    let e ← orWindowAt d p 16
    putLe 1 den e
  else if den < 65535 then do
    let e ← orWindowAt d p 32
    putLe 2 den e
  else if den < 4294967295 then do
    let e ← orWindowAt d p 48
    let e2 ← putLe 1 3 e
    putLe 4 den e2
  else do
    let e ← orWindowAt d p 64
    putLe 8 den e

/-- The view the `i64::write_frac_fixed` frame has of its `dest` slice
after the inner `u64` call returned: the inner call advanced only its own
re-borrowed binding, so the outer slice still starts where it started and
now contains the bytes the inner call wrote followed by the untouched
window. -/
def outerView (fb0 d : FixedBuf) : List Nat :=
  d.written.drop fb0.written.length ++ d.window

/-- `<i64 as RationalNumberWriter>::write_frac_fixed`: `p = dest.len()` of
the outer slice (never advanced), delegate to the `u64` encoder, then
`dest[p] |= SIGN` on the outer slice when the signs differ. -/
def i64_write_frac_fixed (num den : Int) (fb : FixedBuf) : Except Panic FixedBuf := do
  let p := fb.window.length
  let d ← u64_write_frac_fixed num.natAbs den.natAbs fb
  if (0 ≤ num ∧ den < 0) ∨ (num < 0 ∧ 0 ≤ den) then
    if p < (outerView fb d).length then
      let patched := orAt (outerView fb d) p SIGN
      pure ⟨fb.written ++ patched.take (d.written.length - fb.written.length),
            patched.drop (d.written.length - fb.written.length)⟩
    else .error .indexOutOfBounds
  else pure d

/-- The byte width of a width-class code, per the wire format of the spec:
0 maps to 0 bytes (implicit denominator), 1 to 1, 2 to 2, 3 to 4 and 4 to
8 bytes. -/
def widthOfClass (c : Nat) : Nat :=
  if c = 0 then 0 else if c = 1 then 1 else if c = 2 then 2 else if c = 3 then 4 else 8

/-- Modelled from the spec's words for the width-class selection rule: the
class maximum is the largest magnitude representable in the class's byte
width.  Used to compare the spec's "smallest class whose class maximum
strictly exceeds m" against the encoder. -/
def classMax (c : Nat) : Nat := 2 ^ (8 * widthOfClass c) - 1

/-- The width-class the `u64` encoder's if-chain selects for a magnitude
(shared by the numerator path and the non-1 denominator path). -/
def classSel (m : Nat) : Nat :=
  if m < 255 then 1 else if m < 65535 then 2 else if m < 4294967295 then 3 else 4

/-- Width-class of the denominator as the encoder selects it: 0 (omitted)
for a denominator of 1, otherwise as for a numerator magnitude. -/
def denClassSel (den : Nat) : Nat := if den = 1 then 0 else classSel den

/-! Basic reduction lemmas for the `Except Panic` monad and the byte
helpers. -/

theorem ok_bind {α β : Type} (a : α) (f : α → Except Panic β) :
    (Except.ok a : Except Panic α) >>= f = f a := rfl

theorem error_bind {α β : Type} (e : Panic) (f : α → Except Panic β) :
    (Except.error e : Except Panic α) >>= f = .error e := rfl

theorem map_ok {α β : Type} (a : α) (f : α → β) :
    (Except.ok a : Except Panic α).map f = .ok (f a) := rfl

theorem map_error {α β : Type} (e : Panic) (f : α → β) :
    (Except.error e : Except Panic α).map f = .error e := rfl

theorem leBytes_length (w v : Nat) : (leBytes w v).length = w := by
  induction w generalizing v with
  | zero => simp [leBytes]
  | succ n ih => simp [leBytes, ih]

theorem leVal_leBytes (w v : Nat) : leVal (leBytes w v) = v % 256 ^ w := by
  induction w generalizing v with
  | zero => simp [leBytes, leVal, Nat.mod_one]
  | succ n ih =>
    rw [pow_succ' 256 n]
    simp only [leBytes, leVal, ih]
    exact (Nat.mod_mul).symm

theorem getLe_one_cons (b : Nat) (l : List Nat) : getLe 1 (b :: l) = .ok (b, l) := by
  simp [getLe, leVal]

theorem getLe_leBytes (w v : Nat) (rest : List Nat) :
    getLe w (leBytes w v ++ rest) = .ok (v % 256 ^ w, rest) := by
  have hl := leBytes_length w v
  unfold getLe
  rw [if_pos (by simp [hl]), List.take_left' hl, List.drop_left' hl, leVal_leBytes]

theorem getLe_leBytes_lt (w v : Nat) (rest : List Nat) (hv : v < 256 ^ w) :
    getLe w (leBytes w v ++ rest) = .ok (v, rest) := by
  rw [getLe_leBytes, Nat.mod_eq_of_lt hv]

theorem getLe_under (w : Nat) (l : List Nat) (h : l.length < w) :
    getLe w l = .error .bufUnderrun := by
  unfold getLe
  rw [if_neg (by omega)]

theorem neg64_ofNat (v : Nat) (h : v < 2 ^ 63) : neg64 (v : Int) = -(v : Int) := by
  unfold neg64 wrap64
  omega

theorem lor_sign (a : Nat) (h : a < 128) : a ||| 128 = a + 128 := by
  have hb : ∀ b, b < 128 → b ||| 128 = b + 128 := by decide
  exact hb a h

theorem orAt_cons (a : Nat) (t : List Nat) (x : Nat) :
    orAt (a :: t) 0 x = (a ||| x) :: t := by
  simp [orAt]

/-! Width-class bookkeeping for the encoder. -/

theorem classSel_range (m : Nat) : 1 ≤ classSel m ∧ classSel m ≤ 4 := by
  unfold classSel
  split_ifs <;> omega

theorem classSel_bound (m : Nat) (h : m < 2 ^ 64) :
    m < 256 ^ widthOfClass (classSel m) := by
  unfold classSel
  split_ifs <;> norm_num [widthOfClass] <;> omega

theorem denClassSel_le (den : Nat) : denClassSel den ≤ 4 := by
  unfold denClassSel classSel
  split_ifs <;> omega

theorem denClassSel_ne_three (den : Nat) (h : den < 65535 ∨ 4294967295 ≤ den) :
    denClassSel den ≠ 3 := by
  unfold denClassSel classSel
  split_ifs <;> omega

/-- The numerator if-chain of the `u64` growable-buffer encoder in
width-class normal form. -/
theorem u64_num_part (v : Nat) :
    (if v < 255 then [U8_NUM] ++ leBytes 1 v
     else if v < 65535 then [U16_NUM] ++ leBytes 2 v
     else if v < 4294967295 then [U32_NUM] ++ leBytes 4 v
     else [U64_NUM] ++ leBytes 8 v) =
      classSel v :: leBytes (widthOfClass (classSel v)) v := by
  unfold classSel widthOfClass U8_NUM U16_NUM U32_NUM U64_NUM
  split_ifs <;> simp_all

theorem lor_denbits (a : Nat) (ha : a ≤ 4) :
    a ||| 16 = a + 16 ∧ a ||| 32 = a + 32 ∧ a ||| 48 = a + 48 ∧ a ||| 64 = a + 64 := by
  have h : ∀ x, x < 5 →
      x ||| 16 = x + 16 ∧ x ||| 32 = x + 32 ∧ x ||| 48 = x + 48 ∧ x ||| 64 = x + 64 := by
    decide
  exact h a (by omega)

/-- Normal form of the `u64` growable-buffer fraction encoder on a fresh
buffer: one discriminant byte, the numerator magnitude bytes, the spurious
literal 3 exactly in the 4-byte denominator class, then the denominator
magnitude bytes. -/
theorem u64_write_frac_eq (v den : Nat) :
    u64_write_frac v den [] =
      (classSel v + 16 * denClassSel den) ::
        leBytes (widthOfClass (classSel v)) v ++
        (if denClassSel den = 3 then [3] else []) ++
        leBytes (widthOfClass (denClassSel den)) den := by
  have hrange := classSel_range v
  have hlor := lor_denbits (classSel v) hrange.2
  simp only [u64_write_frac, List.length_nil, List.nil_append, u64_num_part,
    U8_DEN, U16_DEN, U32_DEN, U64_DEN]
  by_cases h1 : den = 1
  · rw [if_pos h1]
    simp [denClassSel, h1, widthOfClass, leBytes]
  · rw [if_neg h1]
    by_cases h2 : den < 255
    · rw [if_pos h2]
      rw [orAt_cons, hlor.1]
      simp [denClassSel, classSel, h1, h2, widthOfClass, U8_DEN]
    · rw [if_neg h2]
      by_cases h3 : den < 65535
      · rw [if_pos h3]
        rw [orAt_cons, hlor.2.1]
        simp [denClassSel, classSel, h1, h2, h3, widthOfClass, U16_DEN]
      · rw [if_neg h3]
        by_cases h4 : den < 4294967295
        · rw [if_pos h4]
          rw [orAt_cons, hlor.2.2.1]
          simp [denClassSel, classSel, h1, h2, h3, h4, widthOfClass, U32_DEN]
        · rw [if_neg h4]
          rw [orAt_cons, hlor.2.2.2]
          simp [denClassSel, classSel, h1, h2, h3, h4, widthOfClass, U64_DEN]

/-! Decoder lemmas: reading back what the encoder wrote. -/

theorem readNumMag_classSel (v : Nat) (hv : v < 2 ^ 63) (rest : List Nat) :
    readNumMag (classSel v) (leBytes (widthOfClass (classSel v)) v ++ rest) =
      .ok ((v : Int), rest) := by
  unfold classSel
  split_ifs with h1 h2 h3
  · norm_num [widthOfClass, readNumMag]
    rw [getLe_leBytes_lt 1 v rest (by norm_num; omega)]
    rfl
  · norm_num [widthOfClass, readNumMag]
    rw [getLe_leBytes_lt 2 v rest (by norm_num; omega)]
    rfl
  · norm_num [widthOfClass, readNumMag]
    rw [getLe_leBytes_lt 4 v rest (by norm_num; omega)]
    rfl
  · norm_num [widthOfClass, readNumMag]
    rw [getLe_leBytes_lt 8 v rest (by norm_num; omega)]
    simp [map_ok, u64_as_i64, show v < 9223372036854775808 by omega]

theorem readDenMag_denClassSel (den : Nat) (hden : den < 2 ^ 63)
    (hcls : den < 65535 ∨ 4294967295 ≤ den) (rest : List Nat) :
    readDenMag (denClassSel den) (leBytes (widthOfClass (denClassSel den)) den ++ rest) =
      .ok ((den : Int), rest) := by
  unfold denClassSel classSel
  split_ifs with h1 h2 h3 h4
  · subst h1
    norm_num [widthOfClass, readDenMag, leBytes]
  · norm_num [widthOfClass, readDenMag]
    rw [getLe_leBytes_lt 1 den rest (by norm_num; omega)]
    rfl
  · norm_num [widthOfClass, readDenMag]
    rw [getLe_leBytes_lt 2 den rest (by norm_num; omega)]
    rfl
  · omega
  · norm_num [widthOfClass, readDenMag]
    rw [getLe_leBytes_lt 8 den rest (by norm_num; omega)]
    simp [map_ok, u64_as_i64, show den < 9223372036854775808 by omega]

/-- Decoding the bytes the `u64` fraction encoder wrote (with anything
appended behind them) recovers the numerator and denominator and stops
exactly at the appended bytes, provided the denominator does not fall in
the 4-byte width-class (whose spurious extra byte breaks this). -/
theorem round_trip_u64 (v den : Nat) (suffix : List Nat) (hv : v < 2 ^ 63)
    (hden : den < 2 ^ 63) (hcls : den < 65535 ∨ 4294967295 ≤ den) :
    get_frac_i64 (u64_write_frac v den [] ++ suffix) = .ok ((v : Int), (den : Int), suffix) := by
  have h1 := classSel_range v
  have h2 := denClassSel_le den
  have h3 := denClassSel_ne_three den hcls
  rw [u64_write_frac_eq v den, if_neg h3]
  simp only [List.append_nil, List.cons_append, List.append_assoc]
  simp only [get_frac_i64, getLe_one_cons, ok_bind]
  rw [show (classSel v + 16 * denClassSel den) % 16 = classSel v by omega]
  rw [show (classSel v + 16 * denClassSel den) / 16 % 8 = denClassSel den by omega]
  rw [readNumMag_classSel v hv]
  simp only [ok_bind]
  rw [readDenMag_denClassSel den hden hcls]
  simp only [ok_bind]
  rw [if_neg (show ¬ 128 ≤ (classSel v + 16 * denClassSel den) % 256 by omega)]
  rfl

/-- Setting the sign bit of the discriminant changes a decode only by
negating the numerator (Rust negation, wrapping at `i64::MIN`): the
denominator, the remaining slice, and any panic are unchanged. -/
theorem get_frac_sign_toggle (disc : Nat) (h : disc < 128) (rest : List Nat) :
    get_frac_i64 ((disc + 128) :: rest) =
      (get_frac_i64 (disc :: rest)).map (fun t => (neg64 t.1, t.2.1, t.2.2)) := by
  simp only [get_frac_i64, getLe_one_cons, ok_bind]
  rw [show (disc + 128) % 16 = disc % 16 by omega]
  rw [show (disc + 128) / 16 % 8 = disc / 16 % 8 by omega]
  rcases hn : readNumMag (disc % 16) rest with e | ⟨num, s2⟩
  · simp [error_bind, map_error]
  · simp only [ok_bind]
    rcases hd : readDenMag (disc / 16 % 8) s2 with e | ⟨den, s3⟩
    · simp [error_bind, map_error]
    · simp only [ok_bind]
      rw [if_pos (show 128 ≤ (disc + 128) % 256 by omega)]
      rw [if_neg (show ¬ 128 ≤ disc % 256 by omega)]
      rfl

/-- Round trip for the signed fraction encoder: decoding what
`i64::write_frac` wrote returns the magnitude pair with the denominator
sign folded into the numerator, for denominators outside the broken
4-byte width-class. -/
theorem round_trip_i64 (num den : Int) (suffix : List Nat)
    (hnum : num.natAbs < 2 ^ 63) (hden : den.natAbs < 2 ^ 63)
    (hcls : den.natAbs < 65535 ∨ 4294967295 ≤ den.natAbs) :
    get_frac_i64 (i64_write_frac num den [] ++ suffix) =
      .ok (if (0 ≤ num ∧ den < 0) ∨ (num < 0 ∧ 0 ≤ den) then -(num.natAbs : Int)
           else (num.natAbs : Int), (den.natAbs : Int), suffix) := by
  have h1 := classSel_range num.natAbs
  have h2 := denClassSel_le den.natAbs
  have h3 := denClassSel_ne_three den.natAbs hcls
  by_cases hs : (0 ≤ num ∧ den < 0) ∨ (num < 0 ∧ 0 ≤ den)
  · have hd : u64_write_frac num.natAbs den.natAbs [] =
        (classSel num.natAbs + 16 * denClassSel den.natAbs) ::
          (leBytes (widthOfClass (classSel num.natAbs)) num.natAbs ++
            leBytes (widthOfClass (denClassSel den.natAbs)) den.natAbs) := by
      rw [u64_write_frac_eq, if_neg h3]
      simp
    simp only [i64_write_frac, List.length_nil]
    rw [if_pos hs, hd, orAt_cons]
    simp only [SIGN]
    rw [lor_sign _ (by omega)]
    rw [List.cons_append]
    rw [get_frac_sign_toggle _ (by omega)]
    rw [← List.cons_append, ← hd]
    rw [round_trip_u64 num.natAbs den.natAbs suffix hnum hden hcls]
    rw [map_ok, neg64_ofNat _ hnum]
    rw [if_pos hs]
  · simp only [i64_write_frac, List.length_nil]
    rw [if_neg hs]
    rw [round_trip_u64 num.natAbs den.natAbs suffix hnum hden hcls]
    rw [if_neg hs]

/-! Decoder panic paths. -/

theorem getLe_of_len (w : Nat) (s : List Nat) (h : w ≤ s.length) :
    getLe w s = .ok (leVal (s.take w), s.drop w) := by
  unfold getLe
  rw [if_pos h]

theorem readNumMag_invalid (c : Nat) (s : List Nat) (h : c = 0 ∨ 4 < c) :
    readNumMag c s = .error (.unreachableNum c) := by
  unfold readNumMag
  rw [if_neg (by omega), if_neg (by omega), if_neg (by omega), if_neg (by omega)]

theorem readDenMag_invalid (c : Nat) (s : List Nat) (h : 4 < c) :
    readDenMag c s = .error (.unreachableDen c) := by
  unfold readDenMag
  rw [if_neg (by omega), if_neg (by omega), if_neg (by omega), if_neg (by omega),
    if_neg (by omega)]

theorem readNumMag_one (s : List Nat) :
    readNumMag 1 s = (getLe 1 s).map (fun p => ((p.1 : Int), p.2)) := rfl

theorem readNumMag_two (s : List Nat) :
    readNumMag 2 s = (getLe 2 s).map (fun p => ((p.1 : Int), p.2)) := rfl

theorem readNumMag_three (s : List Nat) :
    readNumMag 3 s = (getLe 4 s).map (fun p => ((p.1 : Int), p.2)) := rfl

theorem readNumMag_four (s : List Nat) :
    readNumMag 4 s = (getLe 8 s).map (fun p => (u64_as_i64 p.1, p.2)) := rfl

theorem readDenMag_one (s : List Nat) :
    readDenMag 1 s = (getLe 1 s).map (fun p => ((p.1 : Int), p.2)) := rfl

theorem readDenMag_two (s : List Nat) :
    readDenMag 2 s = (getLe 2 s).map (fun p => ((p.1 : Int), p.2)) := rfl

theorem readDenMag_three (s : List Nat) :
    readDenMag 3 s = (getLe 4 s).map (fun p => ((p.1 : Int), p.2)) := rfl

theorem readDenMag_four (s : List Nat) :
    readDenMag 4 s = (getLe 8 s).map (fun p => (u64_as_i64 p.1, p.2)) := rfl

theorem readNumMag_under (c : Nat) (s : List Nat) (hc : 1 ≤ c ∧ c ≤ 4)
    (h : s.length < widthOfClass c) :
    readNumMag c s = .error .bufUnderrun := by
  obtain ⟨hc1, hc4⟩ := hc
  interval_cases c
  · rw [show widthOfClass 1 = 1 from rfl] at h
    rw [readNumMag_one, getLe_under _ _ h, map_error]
  · rw [show widthOfClass 2 = 2 from rfl] at h
    rw [readNumMag_two, getLe_under _ _ h, map_error]
  · rw [show widthOfClass 3 = 4 from rfl] at h
    rw [readNumMag_three, getLe_under _ _ h, map_error]
  · rw [show widthOfClass 4 = 8 from rfl] at h
    rw [readNumMag_four, getLe_under _ _ h, map_error]

theorem readDenMag_under (c : Nat) (s : List Nat) (hc : 1 ≤ c ∧ c ≤ 4)
    (h : s.length < widthOfClass c) :
    readDenMag c s = .error .bufUnderrun := by
  obtain ⟨hc1, hc4⟩ := hc
  interval_cases c
  · rw [show widthOfClass 1 = 1 from rfl] at h
    rw [readDenMag_one, getLe_under _ _ h, map_error]
  · rw [show widthOfClass 2 = 2 from rfl] at h
    rw [readDenMag_two, getLe_under _ _ h, map_error]
  · rw [show widthOfClass 3 = 4 from rfl] at h
    rw [readDenMag_three, getLe_under _ _ h, map_error]
  · rw [show widthOfClass 4 = 8 from rfl] at h
    rw [readDenMag_four, getLe_under _ _ h, map_error]

theorem readNumMag_of_len (c : Nat) (s : List Nat) (hc : 1 ≤ c ∧ c ≤ 4)
    (h : widthOfClass c ≤ s.length) :
    ∃ n : Int, readNumMag c s = .ok (n, s.drop (widthOfClass c)) := by
  obtain ⟨hc1, hc4⟩ := hc
  interval_cases c
  · rw [show widthOfClass 1 = 1 from rfl] at h ⊢
    exact ⟨(leVal (s.take 1) : Int), by rw [readNumMag_one, getLe_of_len _ _ h, map_ok]⟩
  · rw [show widthOfClass 2 = 2 from rfl] at h ⊢
    exact ⟨(leVal (s.take 2) : Int), by rw [readNumMag_two, getLe_of_len _ _ h, map_ok]⟩
  · rw [show widthOfClass 3 = 4 from rfl] at h ⊢
    exact ⟨(leVal (s.take 4) : Int), by rw [readNumMag_three, getLe_of_len _ _ h, map_ok]⟩
  · rw [show widthOfClass 4 = 8 from rfl] at h ⊢
    exact ⟨u64_as_i64 (leVal (s.take 8)), by rw [readNumMag_four, getLe_of_len _ _ h, map_ok]⟩

/-! Fixed-buffer write lemmas. -/

theorem putLe_ok (w v : Nat) (fb : FixedBuf) (h : w ≤ fb.window.length) :
    putLe w v fb = .ok ⟨fb.written ++ leBytes w v, fb.window.drop w⟩ := by
  unfold putLe
  rw [if_pos h]

theorem putLe_shrink (w v : Nat) (fb fb' : FixedBuf) (h : putLe w v fb = .ok fb') :
    fb'.window.length + w = fb.window.length ∧
    fb'.written.length = fb.written.length + w := by
  unfold putLe at h
  by_cases hw : w ≤ fb.window.length
  · rw [if_pos hw] at h
    cases h
    simp [leBytes_length]
    omega
  · rw [if_neg hw] at h
    cases h

theorem put2_spec (w1 c w2 v : Nat) (fb d : FixedBuf)
    (h : (putLe w1 c fb >>= putLe w2 v) = .ok d) :
    d.window.length + w1 + w2 = fb.window.length ∧
    d.written.length = fb.written.length + w1 + w2 := by
  rcases h1 : putLe w1 c fb with e | a
  · rw [h1, error_bind] at h
    cases h
  · rw [h1, ok_bind] at h
    have s1 := putLe_shrink _ _ _ _ h1
    have s2 := putLe_shrink _ _ _ _ h
    omega

theorem writeNumFixed_spec (v : Nat) (fb d : FixedBuf) (h : writeNumFixed v fb = .ok d) :
    d.window.length + 2 ≤ fb.window.length ∧
    d.written.length + d.window.length = fb.written.length + fb.window.length ∧
    fb.written.length ≤ d.written.length := by
  unfold writeNumFixed at h
  split_ifs at h
  · have := put2_spec 1 1 1 v fb d h
    omega
  · have := put2_spec 1 2 2 v fb d h
    omega
  · have := put2_spec 1 3 4 v fb d h
    omega
  · have := put2_spec 1 4 8 v fb d h
    omega

theorem writeNumFixed_succeeds (v : Nat) (fb : FixedBuf) (h : 9 ≤ fb.window.length) :
    ∃ d, writeNumFixed v fb = .ok d := by
  unfold writeNumFixed
  split_ifs
  · rw [putLe_ok _ _ _ (by omega), ok_bind,
      putLe_ok _ _ _ (by simp [List.length_drop]; omega)]
    exact ⟨_, rfl⟩
  · rw [putLe_ok _ _ _ (by omega), ok_bind,
      putLe_ok _ _ _ (by simp [List.length_drop]; omega)]
    exact ⟨_, rfl⟩
  · rw [putLe_ok _ _ _ (by omega), ok_bind,
      putLe_ok _ _ _ (by simp [List.length_drop]; omega)]
    exact ⟨_, rfl⟩
  · rw [putLe_ok _ _ _ (by omega), ok_bind,
      putLe_ok _ _ _ (by simp [List.length_drop]; omega)]
    exact ⟨_, rfl⟩

theorem orWindowAt_oob (fb : FixedBuf) (p x : Nat) (h : fb.window.length ≤ p) :
    orWindowAt fb p x = .error .indexOutOfBounds := by
  unfold orWindowAt
  rw [if_neg (by omega)]

/-- Whenever the denominator is not 1, the `u64` fixed-buffer encoder
panics: either a `BufMut` capacity assertion fires first, or the
`dest[p] |= ...` patch indexes past the end of the shrunk slice. -/
theorem u64_fixed_den_panics (v den : Nat) (fb : FixedBuf) (hden : den ≠ 1) :
    ∃ e, u64_write_frac_fixed v den fb = .error e := by
  simp only [u64_write_frac_fixed]
  rcases hw : writeNumFixed v fb with e | d
  · exact ⟨e, by rw [error_bind]⟩
  · have hs := writeNumFixed_spec v fb d hw
    have hor : ∀ x, orWindowAt d fb.window.length x = .error .indexOutOfBounds :=
      fun x => orWindowAt_oob d _ x (by omega)
    rw [ok_bind]
    split_ifs with h1 h2 h3 h4
    · exact (hden h1).elim
    · exact ⟨.indexOutOfBounds, by rw [hor, error_bind]⟩
    · exact ⟨.indexOutOfBounds, by rw [hor, error_bind]⟩
    · exact ⟨.indexOutOfBounds, by rw [hor, error_bind]⟩
    · exact ⟨.indexOutOfBounds, by rw [hor, error_bind]⟩

/-- With enough capacity for the numerator phase the panic is precisely
the out-of-bounds index of the discriminant patch. -/
theorem u64_fixed_den_oob (v den : Nat) (fb : FixedBuf) (hden : den ≠ 1)
    (hcap : 9 ≤ fb.window.length) :
    u64_write_frac_fixed v den fb = .error .indexOutOfBounds := by
  obtain ⟨d, hw⟩ := writeNumFixed_succeeds v fb hcap
  have hs := writeNumFixed_spec v fb d hw
  have hor : ∀ x, orWindowAt d fb.window.length x = .error .indexOutOfBounds :=
    fun x => orWindowAt_oob d _ x (by omega)
  simp only [u64_write_frac_fixed]
  rw [hw, ok_bind]
  split_ifs with h1
  · exact (hden h1).elim
  all_goals rw [hor, error_bind]

theorem u64_fixed_spec (v den : Nat) (fb d : FixedBuf)
    (h : u64_write_frac_fixed v den fb = .ok d) :
    d.written.length + d.window.length = fb.written.length + fb.window.length ∧
    fb.written.length ≤ d.written.length := by
  simp only [u64_write_frac_fixed] at h
  rcases hw : writeNumFixed v fb with e | a
  · rw [hw, error_bind] at h
    cases h
  · have hs := writeNumFixed_spec v fb a hw
    have hor : ∀ x, orWindowAt a fb.window.length x = .error .indexOutOfBounds :=
      fun x => orWindowAt_oob a _ x (by omega)
    rw [hw, ok_bind] at h
    split_ifs at h
    · cases h
      omega
    · rw [hor, error_bind] at h
      cases h
    · rw [hor, error_bind] at h
      cases h
    · rw [hor, error_bind] at h
      cases h
    · rw [hor, error_bind] at h
      cases h

/-- The `i64` fixed-buffer encoder panics whenever the sign patch or the
denominator patch is needed: the inner call either panics itself or
leaves the outer slice binding un-advanced so that `dest[p]` with
`p = dest.len()` is past the end. -/
theorem i64_fixed_panics (num den : Int) (fb : FixedBuf)
    (h : ((0 ≤ num ∧ den < 0) ∨ (num < 0 ∧ 0 ≤ den)) ∨ den.natAbs ≠ 1) :
    ∃ e, i64_write_frac_fixed num den fb = .error e := by
  simp only [i64_write_frac_fixed]
  by_cases hd1 : den.natAbs = 1
  · have hsg : (0 ≤ num ∧ den < 0) ∨ (num < 0 ∧ 0 ≤ den) := by
      rcases h with h | h
      · exact h
      · exact (h hd1).elim
    rcases hw : u64_write_frac_fixed num.natAbs den.natAbs fb with e | d
    · exact ⟨e, by rw [error_bind]⟩
    · have hs := u64_fixed_spec _ _ _ _ hw
      have hlen : (outerView fb d).length = fb.window.length := by
        simp only [outerView, List.length_append, List.length_drop]
        omega
      refine ⟨.indexOutOfBounds, ?_⟩
      rw [ok_bind, if_pos hsg, if_neg (by rw [hlen]; omega)]
  · obtain ⟨e, he⟩ := u64_fixed_den_panics num.natAbs den.natAbs fb hd1
    exact ⟨e, by rw [he, error_bind]⟩

/-- With capacity for the numerator phase, the `i64` fixed-buffer panic is
precisely an out-of-bounds index. -/
theorem i64_fixed_oob (num den : Int) (fb : FixedBuf)
    (h : ((0 ≤ num ∧ den < 0) ∨ (num < 0 ∧ 0 ≤ den)) ∨ den.natAbs ≠ 1)
    (hcap : 9 ≤ fb.window.length) :
    i64_write_frac_fixed num den fb = .error .indexOutOfBounds := by
  simp only [i64_write_frac_fixed]
  by_cases hd1 : den.natAbs = 1
  · have hsg : (0 ≤ num ∧ den < 0) ∨ (num < 0 ∧ 0 ≤ den) := by
      rcases h with h | h
      · exact h
      · exact (h hd1).elim
    obtain ⟨d, hwn⟩ := writeNumFixed_succeeds num.natAbs fb hcap
    have hinner : u64_write_frac_fixed num.natAbs den.natAbs fb = .ok d := by
      simp only [u64_write_frac_fixed]
      rw [hwn, ok_bind, if_pos hd1]
      rfl
    have hs := u64_fixed_spec _ _ _ _ hinner
    have hlen : (outerView fb d).length = fb.window.length := by
      simp only [outerView, List.length_append, List.length_drop]
      omega
    rw [hinner, ok_bind, if_pos hsg, if_neg (by rw [hlen]; omega)]
  · rw [u64_fixed_den_oob num.natAbs den.natAbs fb hd1 hcap, error_bind]

/-! Shape of the signed growable-buffer encoding, for skip consistency. -/

theorem classSel_small (m : Nat) (h : m < 65535) :
    classSel m ≤ 2 ∧ widthOfClass (classSel m) = classSel m := by
  unfold classSel
  split_ifs <;> norm_num [widthOfClass] <;> omega

theorem denClassSel_small (den : Nat) (h : den < 65535) :
    denClassSel den ≤ 2 ∧ widthOfClass (denClassSel den) = denClassSel den := by
  unfold denClassSel
  by_cases h1 : den = 1
  · rw [if_pos h1]
    norm_num [widthOfClass]
  · rw [if_neg h1]
    exact classSel_small den h

theorem i64_write_frac_shape (num den : Int) (h3 : denClassSel den.natAbs ≠ 3) :
    ∃ disc : Nat,
      i64_write_frac num den [] =
        disc :: (leBytes (widthOfClass (classSel num.natAbs)) num.natAbs ++
          leBytes (widthOfClass (denClassSel den.natAbs)) den.natAbs) ∧
      disc % 16 = classSel num.natAbs ∧ disc / 16 % 8 = denClassSel den.natAbs := by
  have h1 := classSel_range num.natAbs
  have h2 := denClassSel_le den.natAbs
  have hd : u64_write_frac num.natAbs den.natAbs [] =
      (classSel num.natAbs + 16 * denClassSel den.natAbs) ::
        (leBytes (widthOfClass (classSel num.natAbs)) num.natAbs ++
          leBytes (widthOfClass (denClassSel den.natAbs)) den.natAbs) := by
    rw [u64_write_frac_eq, if_neg h3]
    simp
  simp only [i64_write_frac, List.length_nil]
  split_ifs with hs
  · refine ⟨classSel num.natAbs + 16 * denClassSel den.natAbs + 128, ?_, by omega, by omega⟩
    rw [hd, orAt_cons]
    simp only [SIGN]
    rw [lor_sign _ (by omega)]
  · exact ⟨classSel num.natAbs + 16 * denClassSel den.natAbs, by rw [hd], by omega, by omega⟩

theorem skip_write_frac (num den : Int) (suffix : List Nat)
    (hnum : num.natAbs < 65535) (hden : den.natAbs < 65535) :
    skip_rational (i64_write_frac num den [] ++ suffix) = .ok suffix := by
  have hns := classSel_small num.natAbs hnum
  have hds := denClassSel_small den.natAbs hden
  obtain ⟨disc, hshape, hm, hd⟩ := i64_write_frac_shape num den (by omega)
  rw [hshape, List.cons_append]
  simp only [skip_rational, getLe_one_cons, ok_bind]
  rw [hm, hd]
  have hlenb : (leBytes (widthOfClass (classSel num.natAbs)) num.natAbs ++
      leBytes (widthOfClass (denClassSel den.natAbs)) den.natAbs).length =
      classSel num.natAbs + denClassSel den.natAbs := by
    simp [List.length_append, leBytes_length, hns.2, hds.2]
  unfold advanceBy
  rw [if_pos (by rw [List.length_append, hlenb]; omega)]
  rw [List.drop_left' hlenb]

theorem sliceIndex_oob (l : List Nat) (i : Nat) (h : l.length ≤ i) :
    sliceIndex l i = .error .indexOutOfBounds := by
  unfold sliceIndex
  rw [List.getElem?_eq_none h]

theorem pure_eq {α : Type} (a : α) : (pure a : Except Panic α) = .ok a := rfl

theorem readDenMag_nonneg (c : Nat) (s : List Nat) (d : Int) (s' : List Nat)
    (hc : c ≠ 4) (h : readDenMag c s = .ok (d, s')) : 0 ≤ d := by
  unfold readDenMag at h
  split_ifs at h with h0 h1 h2 h3
  · simp only [Except.ok.injEq, Prod.mk.injEq] at h
    omega
  · rcases hg : getLe 1 s with e | ⟨v, s3⟩
    · rw [hg, map_error] at h
      simp at h
    · rw [hg, map_ok] at h
      simp only [Except.ok.injEq, Prod.mk.injEq] at h
      omega
  · rcases hg : getLe 2 s with e | ⟨v, s3⟩
    · rw [hg, map_error] at h
      simp at h
    · rw [hg, map_ok] at h
      simp only [Except.ok.injEq, Prod.mk.injEq] at h
      omega
  · rcases hg : getLe 4 s with e | ⟨v, s3⟩
    · rw [hg, map_error] at h
      simp at h
    · rw [hg, map_ok] at h
      simp only [Except.ok.injEq, Prod.mk.injEq] at h
      omega

/-- The spec's width-class selection rule holds for the code's selection
function away from `u64::MAX`: the selected class's maximum strictly
exceeds the magnitude, and every smaller class's maximum does not. -/
theorem classSel_spec (m : Nat) (hm : m < 2 ^ 64 - 1) :
    m < classMax (classSel m) ∧ ∀ c, 1 ≤ c → c < classSel m → classMax c ≤ m := by
  unfold classSel
  split_ifs with h1 h2 h3
  · exact ⟨by norm_num [classMax, widthOfClass]; omega, fun c hc1 hc2 => by omega⟩
  · refine ⟨by norm_num [classMax, widthOfClass]; omega, fun c hc1 hc2 => ?_⟩
    interval_cases c
    norm_num [classMax, widthOfClass]
    omega
  · refine ⟨by norm_num [classMax, widthOfClass]; omega, fun c hc1 hc2 => ?_⟩
    interval_cases c <;> norm_num [classMax, widthOfClass] <;> omega
  · refine ⟨by norm_num [classMax, widthOfClass]; omega, fun c hc1 hc2 => ?_⟩
    interval_cases c <;> norm_num [classMax, widthOfClass] <;> omega

/-! Claim theorems. -/

/-- C1 counterexample: the claimed round trip fails on the code.  For
`write_frac(1, 65535)` the denominator selects the 4-byte width-class,
whose extra literal byte 3 is decoded as part of the magnitude:
`get_frac_i64` returns denominator 16776963, not 65535, and the remaining
slice still holds one byte.  Two further corners: a denominator of
`i64::MIN` decodes to the negative value `-2^63` (not `|den|`), and a
numerator of `i64::MIN` with a negative denominator decodes to `-2^63`
instead of the magnitude `2^63`. -/
theorem c1_counterexample :
    get_frac_i64 (i64_write_frac 1 65535 []) = .ok (1, 16776963, [0]) ∧
    (16776963 : Int) ≠ 65535 ∧
    get_frac_i64 (i64_write_frac 1 (-9223372036854775808) []) =
      .ok (-1, -9223372036854775808, []) ∧
    get_frac_i64 (i64_write_frac (-9223372036854775808) (-3) []) =
      .ok (-9223372036854775808, 3, []) := by
  refine ⟨by decide, by decide, by decide, by decide⟩

/-- C1 (amended): the round trip holds for every signed pair with
`den ≠ 0` whose magnitudes are below `2^63` (so away from `i64::MIN`) and
whose denominator magnitude is outside the broken 4-byte width-class
`[65535, 4294967295)`: decoding the encoding yields the numerator
magnitude signed with XOR of the input signs, the denominator magnitude,
and the slice positioned exactly after the encoded bytes. -/
theorem c1_round_trip (num den : Int) (suffix : List Nat)
    (hnum : num.natAbs < 2 ^ 63) (_hden0 : den ≠ 0) (hden : den.natAbs < 2 ^ 63)
    (hcls : den.natAbs < 65535 ∨ 4294967295 ≤ den.natAbs) :
    get_frac_i64 (i64_write_frac num den [] ++ suffix) =
      .ok (if (0 ≤ num ∧ den < 0) ∨ (num < 0 ∧ 0 ≤ den) then -(num.natAbs : Int)
           else (num.natAbs : Int), (den.natAbs : Int), suffix) :=
  round_trip_i64 num den suffix hnum hden hcls

/-- C1 witness: the amended round trip at `(-3, 4)` with a trailing
byte. -/
theorem c1_witness :
    get_frac_i64 (i64_write_frac (-3) 4 [] ++ [9]) = .ok (-3, 4, [9]) := by
  have h := c1_round_trip (-3) 4 [9] (by norm_num) (by norm_num) (by norm_num)
    (Or.inl (by norm_num))
  norm_num at h
  exact h

/-- C2 counterexample: on the discriminant 0x00 (numerator width-class 0)
`get_frac_i64` hits `unreachable!` — modelled as the `unreachableNum`
panic — instead of returning a recoverable format-corruption error; the
Rust signature `(i64, i64, &[u8])` has no error channel at all. -/
theorem c2_counterexample :
    get_frac_i64 [0] = .error (.unreachableNum 0) := by decide

/-- C2 (amended): for every buffer whose discriminant has numerator
width-class 0 or above 4, or denominator width-class above 4,
`get_frac_i64` never returns a value: it panics (an `unreachable!` panic
when the magnitude reads succeed, an underrun panic otherwise). -/
theorem c2_unreachable (disc : Nat) (rest : List Nat)
    (h : disc % 16 = 0 ∨ 4 < disc % 16 ∨ 4 < disc / 16 % 8) :
    ∃ e : Panic, get_frac_i64 (disc :: rest) = .error e := by
  simp only [get_frac_i64, getLe_one_cons, ok_bind]
  by_cases hn : disc % 16 = 0 ∨ 4 < disc % 16
  · exact ⟨.unreachableNum (disc % 16), by rw [readNumMag_invalid _ _ hn, error_bind]⟩
  · have hd : 4 < disc / 16 % 8 := by tauto
    rcases hr : readNumMag (disc % 16) rest with e | ⟨num, s2⟩
    · exact ⟨e, by rw [error_bind]⟩
    · exact ⟨.unreachableDen (disc / 16 % 8), by
        simp only [ok_bind]
        rw [readDenMag_invalid _ _ hd, error_bind]⟩

/-- C2 witness: discriminant 0x50 (numerator class 0, denominator class
5) panics. -/
theorem c2_witness : ∃ e : Panic, get_frac_i64 (80 :: [7]) = .error e :=
  c2_unreachable 80 [7] (by norm_num)

/-- C3: `skip_rational` consumes the discriminant and advances by the sum
of the two width-class codes; and on every `i64::write_frac` encoding
whose numerator and denominator width-class codes are at most 2 (both
magnitudes below 65535) it lands exactly on the appended suffix, the same
remaining slice `get_frac_i64` returns. -/
theorem c3_skip_consistency (num den : Int) (suffix : List Nat)
    (hnum : num.natAbs < 65535) (hden : den.natAbs < 65535) :
    (∀ (disc : Nat) (rest : List Nat), disc % 16 + disc / 16 % 8 ≤ rest.length →
        skip_rational (disc :: rest) = .ok (rest.drop (disc % 16 + disc / 16 % 8))) ∧
    skip_rational (i64_write_frac num den [] ++ suffix) = .ok suffix ∧
    (∃ n d : Int, get_frac_i64 (i64_write_frac num den [] ++ suffix) = .ok (n, d, suffix)) := by
  refine ⟨?_, skip_write_frac num den suffix hnum hden, ?_⟩
  · intro disc rest hlen
    simp only [skip_rational, getLe_one_cons, ok_bind]
    unfold advanceBy
    rw [if_pos hlen]
  · refine ⟨_, _, round_trip_i64 num den suffix (by omega) (by omega) (Or.inl hden)⟩

/-- C3 witness: skip and decode agree after `write_frac(3, 4)`. -/
theorem c3_witness :
    skip_rational (i64_write_frac 3 4 [] ++ [7]) = .ok [7] :=
  (c3_skip_consistency 3 4 [7] (by norm_num) (by norm_num)).2.1

/-- C4: the spec's byte-level examples against the code.  `write_num(300)`
and `write_frac(3, 4)` match the spec, but `write_num(-5)` writes
`[0x81, 0xFB]`: the 1-byte branch stores `*self as u8` — the
two's-complement low byte 0xFB of -5 — where the claim (and the wider
branches of the same function, which store the magnitude `num`) require
the magnitude byte 0x05.  Decoding the buffer the code wrote yields
`(-251, 1)`, not `(-5, 1)`: the code breaks its own decoder's round trip,
a slip in the 1-byte branch. -/
theorem c4_write_num_eval :
    i64_write_num (-5) [] = [129, 251] ∧
    [(129 : Nat), 251] ≠ [129, 5] ∧
    get_frac_i64 (i64_write_num (-5) []) = .ok (-251, 1, []) ∧
    i64_write_num 300 [] = [2, 44, 1] ∧
    i64_write_frac 3 4 [] = [17, 3, 4] ∧
    get_frac_i64 [17, 3, 4] = .ok (3, 4, []) := by
  refine ⟨by decide, by decide, by decide, by decide, by decide, by decide⟩

/-- C5: every fixed-buffer encode that must patch the already-written
discriminant byte panics.  The patch position is the slice length before
any write and the `BufMut` writes shrink the slice, so `dest[p]` is past
the end whenever it is reached; the call panics for every capacity, and
with capacity for the numerator phase the panic is precisely the
out-of-bounds index.  This fires for `i64::write_frac_fixed` whenever the
signs differ or the denominator magnitude is not 1, and for
`u64::write_frac_fixed` whenever the denominator is not 1. -/
theorem c5_fixed_patch (num den : Int) (m dm : Nat) (fb fb2 : FixedBuf)
    (hi : ((0 ≤ num ∧ den < 0) ∨ (num < 0 ∧ 0 ≤ den)) ∨ den.natAbs ≠ 1)
    (hu : dm ≠ 1) :
    (∃ e, i64_write_frac_fixed num den fb = .error e) ∧
    (9 ≤ fb.window.length → i64_write_frac_fixed num den fb = .error .indexOutOfBounds) ∧
    (∃ e, u64_write_frac_fixed m dm fb2 = .error e) ∧
    (9 ≤ fb2.window.length → u64_write_frac_fixed m dm fb2 = .error .indexOutOfBounds) :=
  ⟨i64_fixed_panics num den fb hi, fun hc => i64_fixed_oob num den fb hi hc,
   u64_fixed_den_panics m dm fb2 hu, fun hc => u64_fixed_den_oob m dm fb2 hu hc⟩

/-- C5 witness: `i64::write_frac_fixed(1, -1)` (sign patch) and
`u64::write_frac_fixed(1, 2)` (denominator patch) both panic with an
out-of-bounds index on a 9-byte buffer. -/
theorem c5_witness :
    i64_write_frac_fixed 1 (-1) ⟨[], List.replicate 9 0⟩ = .error .indexOutOfBounds ∧
    u64_write_frac_fixed 1 2 ⟨[], List.replicate 9 0⟩ = .error .indexOutOfBounds := by
  have h := c5_fixed_patch 1 (-1) 1 2 ⟨[], List.replicate 9 0⟩ ⟨[], List.replicate 9 0⟩
    (Or.inl (Or.inl ⟨by norm_num, by norm_num⟩)) (by norm_num)
  exact ⟨h.2.1 (by simp), h.2.2.2 (by simp)⟩

/-- C6 counterexample: the claim's fixed-buffer half fails at runtime.
For `u64::write_frac_fixed(1, 65535)` — a denominator in the 4-byte
width-class — the call panics at the discriminant patch `dest[p]` before
ever reaching the `put_u8(3)` that writes the extra byte, so the fixed
path writes no extra byte. -/
theorem c6_counterexample :
    u64_write_frac_fixed 1 65535 ⟨[], List.replicate 12 0⟩ = .error .indexOutOfBounds := by
  decide

/-- C6 (amended): in the growable path, exactly the 4-byte denominator
width-class inserts the literal byte 3 between the numerator magnitude
and the 4 denominator magnitude bytes; no other denominator class and no
numerator path writes any extra byte (each contributes exactly its
width-class's bytes).  The fixed path contains the same extra-byte write
but panics at the discriminant patch before reaching it whenever the
denominator is not 1. -/
theorem c6_extra_byte (m den : Nat) :
    (u64_write_frac m den [] =
      (classSel m + 16 * denClassSel den) ::
        leBytes (widthOfClass (classSel m)) m ++
        (if denClassSel den = 3 then [3] else []) ++
        leBytes (widthOfClass (denClassSel den)) den) ∧
    (denClassSel den = 3 ↔ 65535 ≤ den ∧ den < 4294967295) ∧
    (den ≠ 1 → ∃ e, u64_write_frac_fixed m den ⟨[], List.replicate 12 0⟩ = .error e) := by
  refine ⟨u64_write_frac_eq m den, ?_, fun h => u64_fixed_den_panics m den _ h⟩
  unfold denClassSel classSel
  split_ifs <;> constructor <;> intro h <;> first | exact h.elim | omega

/-- C6 witness: `write_frac(2, 70000)` shows the extra byte 3 before the
4-byte little-endian denominator. -/
theorem c6_witness :
    u64_write_frac 2 70000 [] = [49, 2, 3, 112, 17, 1, 0] ∧
    (∃ e, u64_write_frac_fixed 2 70000 ⟨[], List.replicate 12 0⟩ = .error e) := by
  have h := c6_extra_byte 2 70000
  exact ⟨by rw [h.1]; decide, h.2.2 (by norm_num)⟩

/-- C7 counterexample: at `m = u64::MAX` the strict-less-than rule has no
class to pick — the encoder still selects the 8-byte class (code 4), whose
class maximum `2^64 - 1` does not strictly exceed `m`. -/
theorem c7_counterexample :
    (u64_write_frac (2 ^ 64 - 1) 1 []).headD 0 % 16 = 4 ∧
    ¬ (2 ^ 64 - 1 < classMax 4) := ⟨by decide, by decide⟩

/-- C7 (amended): for every magnitude below `u64::MAX`, and on both the
numerator and (non-1) denominator paths, the width-class the encoder
stores in the discriminant is the smallest class whose class maximum
strictly exceeds the magnitude; `u64::MAX` itself still encodes in the
8-byte class although no class maximum exceeds it. -/
theorem c7_strict_selection (m den : Nat) (hm : m < 2 ^ 64 - 1) (hden : den < 2 ^ 64 - 1)
    (hden1 : den ≠ 1) :
    (m < classMax ((u64_write_frac m den []).headD 0 % 16) ∧
      ∀ c, 1 ≤ c → c < (u64_write_frac m den []).headD 0 % 16 → classMax c ≤ m) ∧
    (den < classMax ((u64_write_frac m den []).headD 0 / 16 % 8) ∧
      ∀ c, 1 ≤ c → c < (u64_write_frac m den []).headD 0 / 16 % 8 → classMax c ≤ den) := by
  have h1 := classSel_range m
  have h2 := denClassSel_le den
  have hhead : (u64_write_frac m den []).headD 0 = classSel m + 16 * denClassSel den := by
    rw [u64_write_frac_eq]
    rfl
  rw [hhead]
  rw [show (classSel m + 16 * denClassSel den) % 16 = classSel m by omega]
  rw [show (classSel m + 16 * denClassSel den) / 16 % 8 = denClassSel den by omega]
  have hd : denClassSel den = classSel den := by
    unfold denClassSel
    rw [if_neg hden1]
  rw [hd]
  exact ⟨classSel_spec m hm, classSel_spec den hden⟩

/-- C7 witness: boundary magnitudes 254 (1-byte) and 255 (promoted to
2-byte) on the numerator and denominator paths. -/
theorem c7_witness :
    254 < classMax ((u64_write_frac 254 255 []).headD 0 % 16) ∧
    255 < classMax ((u64_write_frac 254 255 []).headD 0 / 16 % 8) ∧
    classMax 1 ≤ 255 := by
  have h := c7_strict_selection 254 255 (by norm_num) (by norm_num) (by norm_num)
  exact ⟨h.1.1, h.2.1, h.2.2 1 (by norm_num) (by decide)⟩

/-- C8 counterexample: a decoded denominator can be negative.  With
denominator width-class 4 and magnitude bytes `2^63`, the `v as i64`
reinterpretation yields `-2^63`; and with numerator bytes `2^63` the sign
flag fails to negate: discriminants 0x04 and 0x84 decode to the same
numerator `-2^63`. -/
theorem c8_counterexample :
    get_frac_i64 [65, 1, 0, 0, 0, 0, 0, 0, 0, 128] =
      .ok (1, -9223372036854775808, []) ∧
    ¬ (0 ≤ (-9223372036854775808 : Int)) ∧
    get_frac_i64 [132, 0, 0, 0, 0, 0, 0, 0, 128] =
      .ok (-9223372036854775808, 1, []) ∧
    get_frac_i64 [4, 0, 0, 0, 0, 0, 0, 0, 128] =
      .ok (-9223372036854775808, 1, []) := by
  refine ⟨by decide, by decide, by decide, by decide⟩

/-- C8 (amended): every successfully decoded denominator is non-negative
unless the denominator width-class is 4 (where the 8-byte `u64 → i64`
reinterpretation can go negative); and the sign flag's only effect is to
apply the (wrapping) negation to the numerator, never to the denominator
or the remaining slice. -/
theorem c8_den_nonneg :
    (∀ (disc : Nat) (rest : List Nat) (n d : Int) (r : List Nat),
        get_frac_i64 (disc :: rest) = .ok (n, d, r) → 0 ≤ d ∨ disc / 16 % 8 = 4) ∧
    (∀ (disc : Nat) (rest : List Nat), disc < 128 →
        get_frac_i64 ((disc + 128) :: rest) =
          (get_frac_i64 (disc :: rest)).map (fun t => (neg64 t.1, t.2.1, t.2.2))) := by
  constructor
  · intro disc rest n d r h
    by_cases hc4 : disc / 16 % 8 = 4
    · exact Or.inr hc4
    · left
      simp only [get_frac_i64, getLe_one_cons, ok_bind] at h
      rcases hr : readNumMag (disc % 16) rest with e | ⟨num, s2⟩
      · rw [hr, error_bind] at h
        simp at h
      · rw [hr] at h
        simp only [ok_bind] at h
        rcases hd : readDenMag (disc / 16 % 8) s2 with e | ⟨dv, s3⟩
        · rw [hd, error_bind] at h
          simp at h
        · rw [hd] at h
          simp only [ok_bind] at h
          have hnn := readDenMag_nonneg _ _ _ _ hc4 hd
          split_ifs at h <;>
            (simp only [pure_eq, Except.ok.injEq, Prod.mk.injEq] at h; omega)
  · exact fun disc rest h => get_frac_sign_toggle disc h rest

/-- C8 witness: the decode of `[0x11, 3, 4]` has a non-negative
denominator, and toggling its sign bit negates only the numerator. -/
theorem c8_witness :
    ((0 : Int) ≤ 4 ∨ 17 / 16 % 8 = 4) ∧
    get_frac_i64 ((17 + 128) :: [3, 4]) =
      (get_frac_i64 (17 :: [3, 4])).map (fun t => (neg64 t.1, t.2.1, t.2.2)) := by
  have h := c8_den_nonneg
  exact ⟨h.1 17 [3, 4] 3 4 [] (by decide), h.2 17 [3, 4] (by norm_num)⟩

/-- C9 counterexample: on a truncated buffer the decoder panics (the
`bytes` crate's read assertion, modelled as the `bufUnderrun` panic)
instead of returning a recoverable buffer-underrun error: the Rust
signatures have no error channel. -/
theorem c9_counterexample :
    get_frac_i64 [1] = .error .bufUnderrun ∧
    skip_rational [17, 3] = .error .bufUnderrun := ⟨by decide, by decide⟩

/-- C9 (amended): whenever fewer bytes remain than the discriminant's
declared width-classes require, `get_frac_i64` and `skip_rational` panic
with the `bytes` crate's underrun assertion — they never read out of
bounds and never return a value. -/
theorem c9_underrun (disc : Nat) (rest : List Nat)
    (hn : 1 ≤ disc % 16 ∧ disc % 16 ≤ 4) (hdc : disc / 16 % 8 ≤ 4)
    (hlen : rest.length < widthOfClass (disc % 16) + widthOfClass (disc / 16 % 8)) :
    get_frac_i64 (disc :: rest) = .error .bufUnderrun ∧
    (∀ (v : Nat) (r : List Nat), r.length < v % 16 + v / 16 % 8 →
        skip_rational (v :: r) = .error .bufUnderrun) ∧
    get_frac_i64 [] = .error .bufUnderrun ∧ skip_rational [] = .error .bufUnderrun := by
  refine ⟨?_, ?_, by decide, by decide⟩
  · simp only [get_frac_i64, getLe_one_cons, ok_bind]
    by_cases h1 : rest.length < widthOfClass (disc % 16)
    · rw [readNumMag_under _ _ hn h1, error_bind]
    · obtain ⟨n, hok⟩ := readNumMag_of_len _ rest hn (by omega)
      rw [hok]
      simp only [ok_bind]
      have hdrop : (rest.drop (widthOfClass (disc % 16))).length =
          rest.length - widthOfClass (disc % 16) := List.length_drop _ _
      have hc2 : 1 ≤ disc / 16 % 8 := by
        by_contra hc
        have h0 : disc / 16 % 8 = 0 := by omega
        rw [h0] at hlen
        rw [show widthOfClass 0 = 0 from rfl] at hlen
        omega
      rw [readDenMag_under _ _ ⟨hc2, hdc⟩ (by omega), error_bind]
  · intro v r hvr
    simp only [skip_rational, getLe_one_cons, ok_bind]
    unfold advanceBy
    rw [if_neg (by omega)]

/-- C9 witness: a 2-byte-class numerator with only one byte left, and a
skip past the end. -/
theorem c9_witness :
    get_frac_i64 [2, 5] = .error .bufUnderrun ∧
    skip_rational [18] = .error .bufUnderrun := by
  have h := c9_underrun 2 [5] (by norm_num) (by norm_num) (by norm_num [widthOfClass])
  exact ⟨h.1, h.2.1 18 [] (by norm_num)⟩

/-- C10 counterexample: a 2-byte buffer whose byte 1 is not 1 does not
panic — Rust's `&&` short-circuits before the `self[2]` access — so
"every buffer shorter than 3 bytes panics" is false: both checks return
`false` on `[0x01, 0x02]`. -/
theorem c10_counterexample :
    is_one_rat [1, 2] = .ok false ∧ is_zero_rat [1, 2] = .ok false :=
  ⟨by decide, by decide⟩

/-- C10 (amended): `is_one_rat`/`is_zero_rat` index bytes 1 and 2 without
consulting the discriminant or the length.  They panic out of bounds on
every buffer shorter than 2 bytes; on a 2-byte buffer they panic exactly
when byte 1 equals 1 (reaching the `self[2]` access) and short-circuit to
`false` otherwise; in particular both panic on the 2-byte encoding
`write_num(1) = [0x01, 0x01]` when it ends the buffer, instead of
returning `false`. -/
theorem c10_short_buffers :
    (∀ l : List Nat, l.length < 2 →
        is_one_rat l = .error .indexOutOfBounds ∧
        is_zero_rat l = .error .indexOutOfBounds) ∧
    (∀ a b : Nat,
        (is_one_rat [a, b] =
          if b = 1 then .error .indexOutOfBounds else .ok false) ∧
        (is_zero_rat [a, b] =
          if b = 1 then .error .indexOutOfBounds else .ok false)) ∧
    i64_write_num 1 [] = [1, 1] ∧
    is_one_rat [1, 1] = .error .indexOutOfBounds ∧
    is_zero_rat [1, 1] = .error .indexOutOfBounds := by
  refine ⟨?_, ?_, by decide, by decide, by decide⟩
  · intro l hl
    constructor
    · simp only [is_one_rat, sliceIndex_oob l 1 (by omega), error_bind]
    · simp only [is_zero_rat, sliceIndex_oob l 1 (by omega), error_bind]
  · intro a b
    constructor
    · simp only [is_one_rat, show sliceIndex [a, b] 1 = .ok b from rfl, ok_bind]
      by_cases hb : b = 1
      · subst hb
        rw [if_pos rfl, if_pos rfl, sliceIndex_oob [a, 1] 2 (by norm_num), error_bind]
      · rw [if_neg hb, if_neg hb]
        rfl
    · simp only [is_zero_rat, show sliceIndex [a, b] 1 = .ok b from rfl, ok_bind]
      by_cases hb : b = 1
      · subst hb
        rw [if_pos rfl, if_pos rfl, sliceIndex_oob [a, 1] 2 (by norm_num), error_bind]
      · rw [if_neg hb, if_neg hb]
        rfl

/-- C10 witness: a 1-byte buffer panics in both checks. -/
theorem c10_witness :
    is_one_rat [7] = .error .indexOutOfBounds ∧
    is_zero_rat [7] = .error .indexOutOfBounds :=
  c10_short_buffers.1 [7] (by norm_num)
